import Mathlib

/-!
Verification development for the `weppy.cache` module: a shallow embedding of
its cache backends (`RamCache`, `DiskCache`, `RedisCache`), the duration
normalization decorator (`CacheHandler._convert_duration_`), the fingerprint
builder (`CacheHashMixin`), and the facade-level `get_or_set`, together with
theorems settling the specification claims about them.

Modelling conventions:
* Python values are the inductive `PyVal`; the Python `None` object is
  `PyVal.vnone`.  A cache "miss" is represented, exactly as in the source,
  by returning `None` (`vnone`), not by a separate option layer.
* Timestamps (`time.time()`) and durations are modelled as integers; the
  source uses floats but performs only order comparisons and addition on
  them, which the claims exercise at integral points only.
* Python exceptions are modelled with `Except PyErr`; `try/except` blocks
  are transliterated by matching on the `Except` value at the same point
  where the source catches.
-/

inductive PyVal where
  | vnone
  | vint (n : Int)
  | vstr (s : String)
  | vlist (xs : List PyVal)
  | vtuple (xs : List PyVal)
  | vdict (xs : List (String × PyVal))

/-- Python exception classes that the modelled code can raise. -/
inductive PyErr where
  | keyError
  | valueError
  | indexError
  | osError
  | typeError
  deriving DecidableEq

/-- Decimal digits of a natural number, least significant first; `fuel ≥ n`
makes the recursion structural.  Mirrors the textual form produced by
Python `str`/`repr` on a natural number. -/
def natDecAux : Nat → Nat → List Char
  | 0, _ => []
  | fuel + 1, n => if n = 0 then [] else Char.ofNat (48 + n % 10) :: natDecAux fuel (n / 10)

/-- Decimal string of a natural number (Python `str(n)` for `n ≥ 0`). -/
def natDecStr (n : Nat) : String :=
  if n = 0 then "0" else String.mk (natDecAux n n).reverse

/-- Decimal string of an integer (Python `str(n)` / `repr(n)` on `int`). -/
def intDecStr (n : Int) : String :=
  if n < 0 then "-" ++ natDecStr n.natAbs else natDecStr n.toNat

/-- Parse a list of decimal digit characters, accumulator style; any
non-digit character fails.  Models the digit-consuming core of Python
`int(...)` applied to this module's own canonical encodings (the source
never feeds it signs-with-spaces or other liberal forms it would accept). -/
def parseNatAux : List Char → Nat → Option Nat
  | [], acc => some acc
  | c :: cs, acc =>
    if 48 ≤ c.toNat ∧ c.toNat ≤ 57 then parseNatAux cs (10 * acc + (c.toNat - 48))
    else none

/-- Python `int(bytes)` on an unsigned digit string; empty input raises
`ValueError`, modelled as `none`. -/
def parseNatPy : List Char → Option Nat
  | [] => none
  | c :: cs => parseNatAux (c :: cs) 0

/-- Python `int(bytes)` on a possibly-sign-prefixed decimal string;
`none` models a `ValueError`. -/
def parseIntPy (s : String) : Option Int :=
  if s.data.head? = some '-' then (parseNatPy s.data.tail).map (fun k : Nat => -(k : Int))
  else (parseNatPy s.data).map (fun k : Nat => (k : Int))

theorem charOfDigit_toNat {d : Nat} (hd : d < 10) : (Char.ofNat (48 + d)).toNat = 48 + d := by
  interval_cases d <;> decide

theorem charOfDigit_isDigit {d : Nat} (hd : d < 10) :
    48 ≤ (Char.ofNat (48 + d)).toNat ∧ (Char.ofNat (48 + d)).toNat ≤ 57 := by
  rw [charOfDigit_toNat hd]; omega

theorem parseNatAux_append (l₁ l₂ : List Char) (acc : Nat) :
    parseNatAux (l₁ ++ l₂) acc =
      match parseNatAux l₁ acc with
      | some a => parseNatAux l₂ a
      | none => none := by
  induction l₁ generalizing acc with
  | nil => simp [parseNatAux]
  | cons c cs ih =>
    simp only [List.cons_append, parseNatAux]
    by_cases h : 48 ≤ c.toNat ∧ c.toNat ≤ 57
    · simp [h, ih]
    · simp [h]

theorem natDecAux_mem {fuel n : Nat} {c : Char} (hc : c ∈ natDecAux fuel n) :
    ∃ d, d < 10 ∧ c = Char.ofNat (48 + d) := by
  induction fuel generalizing n with
  | zero => simp [natDecAux] at hc
  | succ fuel ih =>
    by_cases h : n = 0
    · simp [natDecAux, h] at hc
    · simp only [natDecAux, if_neg h, List.mem_cons] at hc
      rcases hc with hc | hc
      · exact ⟨n % 10, Nat.mod_lt _ (by omega), hc⟩
      · exact ih hc

theorem parseNatAux_natDecAux {fuel n : Nat} (hfn : n ≤ fuel) (acc : Nat) :
    parseNatAux (natDecAux fuel n).reverse acc =
      some (acc * 10 ^ (natDecAux fuel n).length + n) := by
  induction fuel generalizing n acc with
  | zero =>
    have : n = 0 := Nat.le_zero.mp hfn
    simp [natDecAux, parseNatAux, this]
  | succ fuel ih =>
    by_cases h : n = 0
    · simp [natDecAux, h, parseNatAux]
    · have hdiv : n / 10 ≤ fuel := by
        have h10 : n / 10 < n := Nat.div_lt_self (Nat.pos_of_ne_zero h) (by norm_num)
        omega
      have hmod : n % 10 < 10 := Nat.mod_lt _ (by omega)
      simp only [natDecAux, if_neg h, List.reverse_cons]
      rw [parseNatAux_append, ih hdiv acc]
      simp only [parseNatAux]
      rw [if_pos (charOfDigit_isDigit hmod), charOfDigit_toNat hmod]
      have hd : 48 + n % 10 - 48 = n % 10 := by omega
      rw [hd]
      have : 10 * (acc * 10 ^ (natDecAux fuel (n / 10)).length + n / 10) + n % 10 =
          acc * 10 ^ ((natDecAux fuel (n / 10)).length + 1) + n := by
        rw [pow_succ]
        have := Nat.div_add_mod n 10
        ring_nf
        omega
      simp [parseNatAux, this]

theorem parseNatPy_natDecStr (n : Nat) : parseNatPy (natDecStr n).data = some n := by
  by_cases h : n = 0
  · subst h; decide
  · have hne : natDecAux n n ≠ [] := by
      cases hn : n with
      | zero => exact absurd hn h
      | succ m => simp [natDecAux, hn.symm ▸ h, hn]
    simp only [natDecStr, if_neg h]
    have hrev : (natDecAux n n).reverse ≠ [] := by
      simpa using hne
    obtain ⟨c, cs, hcons⟩ := List.exists_cons_of_ne_nil hrev
    show parseNatPy (natDecAux n n).reverse = some n
    rw [hcons]
    show parseNatAux (c :: cs) 0 = some n
    rw [← hcons, parseNatAux_natDecAux (Nat.le_refl n) 0]
    simp

theorem natDecStr_head_digit (n : Nat) :
    ∃ c cs, (natDecStr n).data = c :: cs ∧ 48 ≤ c.toNat ∧ c.toNat ≤ 57 := by
  by_cases h : n = 0
  · exact ⟨'0', [], by simp [h, natDecStr], by decide, by decide⟩
  · have hne : natDecAux n n ≠ [] := by
      cases hn : n with
      | zero => exact absurd hn h
      | succ m => simp [natDecAux, hn.symm ▸ h, hn]
    have hrev : (natDecAux n n).reverse ≠ [] := by simpa using hne
    obtain ⟨c, cs, hcons⟩ := List.exists_cons_of_ne_nil hrev
    have hc : c ∈ natDecAux n n := by
      have : c ∈ (natDecAux n n).reverse := by rw [hcons]; exact List.mem_cons_self _ _
      simpa using this
    obtain ⟨d, hd, hcd⟩ := natDecAux_mem hc
    refine ⟨c, cs, ?_, ?_, ?_⟩
    · simp [natDecStr, if_neg h, hcons]
    · rw [hcd, charOfDigit_toNat hd]; omega
    · rw [hcd, charOfDigit_toNat hd]; omega

theorem parseIntPy_intDecStr (n : Int) : parseIntPy (intDecStr n) = some n := by
  by_cases hn : n < 0
  · simp only [intDecStr, if_pos hn, parseIntPy]
    have hdata : ("-" ++ natDecStr n.natAbs).data = '-' :: (natDecStr n.natAbs).data := by
      simpa using String.data_append "-" (natDecStr n.natAbs)
    rw [hdata]
    simp only [List.head?_cons, List.tail_cons, Option.some.injEq, if_true, eq_self_iff_true,
      parseNatPy_natDecStr n.natAbs, Option.map_some']
    omega
  · simp only [intDecStr, if_neg hn, parseIntPy]
    obtain ⟨c, cs, hcons, h48, h57⟩ := natDecStr_head_digit n.toNat
    have hcneq : ¬ (natDecStr n.toNat).data.head? = some '-' := by
      rw [hcons]
      simp only [List.head?_cons, Option.some.injEq]
      intro he
      rw [he] at h48
      revert h48
      decide
    rw [if_neg hcneq, parseNatPy_natDecStr n.toNat]
    simp only [Option.map_some']
    congr 1
    omega

/-!
Python `repr` on the modelled value types.  String escaping is not
modelled: the repertoire of keys and values in the claims contains no
quotes or control characters, for which Python `repr` is the identity
inside the quote pair.
-/

mutual

def reprPy : PyVal → String
  | .vnone => "None"
  | .vint n => intDecStr n
  | .vstr s => "'" ++ s ++ "'"
  | .vlist xs => "[" ++ reprElems xs ++ "]"
  | .vtuple [x] => "(" ++ reprPy x ++ ",)"
  | .vtuple xs => "(" ++ reprElems xs ++ ")"
  | .vdict xs => "\x7b" ++ reprPairs xs ++ "\x7d"

def reprElems : List PyVal → String
  | [] => ""
  | [x] => reprPy x
  | x :: y :: rest => reprPy x ++ ", " ++ reprElems (y :: rest)

def reprPairs : List (String × PyVal) → String
  | [] => ""
  | [(k, v)] => "'" ++ k ++ "': " ++ reprPy v
  | (k, v) :: y :: rest => "'" ++ k ++ "': " ++ reprPy v ++ ", " ++ reprPairs (y :: rest)

end

/-- Python `<` on strings: lexicographic comparison of code points. -/
def charsLtB : List Char → List Char → Bool
  | [], [] => false
  | [], _ :: _ => true
  | _ :: _, [] => false
  | a :: as, b :: bs =>
    if a.toNat < b.toNat then true
    else if b.toNat < a.toNat then false
    else charsLtB as bs

def strLtB (a b : String) : Bool := charsLtB a.data b.data

theorem charsLtB_cons_iff (a b : Char) (as bs : List Char) :
    charsLtB (a :: as) (b :: bs) = true ↔
      (a.toNat < b.toNat ∨ (a.toNat = b.toNat ∧ charsLtB as bs = true)) := by
  simp only [charsLtB]
  by_cases h1 : a.toNat < b.toNat
  · simp [h1]
  · by_cases h2 : b.toNat < a.toNat
    · simp [h1, h2]
      omega
    · have h3 : a.toNat = b.toNat := by omega
      simp [h1, h2, h3]

theorem charsLtB_asymm : ∀ as bs : List Char, charsLtB as bs = true → charsLtB bs as = false := by
  intro as
  induction as with
  | nil =>
    intro bs h
    cases bs with
    | nil => simp [charsLtB] at h
    | cons b bs => simp [charsLtB]
  | cons a as ih =>
    intro bs h
    cases bs with
    | nil => simp [charsLtB] at h
    | cons b bs =>
      rw [charsLtB_cons_iff] at h
      rw [Bool.eq_false_iff]
      intro hcontra
      rw [charsLtB_cons_iff] at hcontra
      rcases h with h | ⟨he, ht⟩
      · rcases hcontra with h' | ⟨he', _⟩ <;> omega
      · rcases hcontra with h' | ⟨_, ht'⟩
        · omega
        · have hfalse := ih bs ht
          rw [ht'] at hfalse
          exact Bool.noConfusion hfalse

theorem charsLtB_cons_false_iff (a b : Char) (as bs : List Char) :
    charsLtB (a :: as) (b :: bs) = false ↔
      (b.toNat < a.toNat ∨ (a.toNat = b.toNat ∧ charsLtB as bs = false)) := by
  simp only [charsLtB]
  by_cases h1 : a.toNat < b.toNat
  · simp [h1]
    omega
  · by_cases h2 : b.toNat < a.toNat
    · simp [h1, h2]
    · have h3 : a.toNat = b.toNat := by omega
      simp [h1, h2, h3]

theorem charsLtB_conn : ∀ as bs : List Char,
    charsLtB as bs = false → charsLtB bs as = false → as = bs := by
  intro as
  induction as with
  | nil =>
    intro bs h _
    cases bs with
    | nil => rfl
    | cons b bs => simp [charsLtB] at h
  | cons a as ih =>
    intro bs h h'
    cases bs with
    | nil => simp [charsLtB] at h'
    | cons b bs =>
      rw [charsLtB_cons_false_iff] at h h'
      rcases h with h | ⟨he, ht⟩
      · rcases h' with h' | ⟨he', _⟩ <;> omega
      · rcases h' with h' | ⟨_, ht'⟩
        · omega
        · have hchar : a = b := Char.eq_of_val_eq (UInt32.ext he)
          rw [hchar, ih bs ht ht']

theorem charsLtB_trans : ∀ as bs cs : List Char,
    charsLtB as bs = true → charsLtB bs cs = true → charsLtB as cs = true := by
  intro as
  induction as with
  | nil =>
    intro bs cs h h'
    cases bs with
    | nil => simp [charsLtB] at h
    | cons b bs =>
      cases cs with
      | nil => simp [charsLtB] at h'
      | cons c cs => simp [charsLtB]
  | cons a as ih =>
    intro bs cs h h'
    cases bs with
    | nil => simp [charsLtB] at h
    | cons b bs =>
      cases cs with
      | nil => simp [charsLtB] at h'
      | cons c cs =>
        rw [charsLtB_cons_iff] at h h' ⊢
        rcases h with h | ⟨he, ht⟩
        · rcases h' with h' | ⟨he', _⟩
          · left; omega
          · left; omega
        · rcases h' with h' | ⟨he', ht'⟩
          · left; omega
          · exact Or.inr ⟨by omega, ih bs cs ht ht'⟩

theorem strLtB_asymm {a b : String} (h : strLtB a b = true) : strLtB b a = false :=
  charsLtB_asymm _ _ h

theorem strLtB_conn {a b : String} (h : strLtB a b = false) (h' : strLtB b a = false) : a = b :=
  String.ext (charsLtB_conn _ _ h h')

theorem strLtB_trans {a b c : String} (h : strLtB a b = true) (h' : strLtB b c = true) :
    strLtB a c = true :=
  charsLtB_trans _ _ _ h h'

/-- Insert a string into an ascending list, before the first element that is
not strictly below it; the insertion step of Python `sorted`. -/
def pyInsert (k : String) : List String → List String
  | [] => [k]
  | x :: xs => if strLtB x k then x :: pyInsert k xs else k :: x :: xs

/-- Ascending sort of a list of strings; models Python `sorted` over the keys
of a mapping (the result of `sorted` is determined by the multiset of keys,
proven below, so the choice of sorting algorithm is immaterial). -/
def pySorted : List String → List String
  | [] => []
  | x :: xs => pyInsert x (pySorted xs)

theorem pyInsert_comm_of_lt {x y : String} (hxy : strLtB x y = true) :
    ∀ l : List String, pyInsert x (pyInsert y l) = pyInsert y (pyInsert x l) := by
  intro l
  induction l with
  | nil =>
    simp [pyInsert, hxy, strLtB_asymm hxy]
  | cons z zs ih =>
    by_cases hzy : strLtB z y = true
    · by_cases hzx : strLtB z x = true
      · simp only [pyInsert, hzy, hzx, if_true]
        rw [ih]
      · have hzx' : strLtB z x = false := Bool.eq_false_iff.mpr hzx
        simp [pyInsert, hzy, hzx', hxy]
    · have hzy' : strLtB z y = false := Bool.eq_false_iff.mpr hzy
      have hzx' : strLtB z x = false := by
        rw [Bool.eq_false_iff]
        intro hzx
        exact hzy (strLtB_trans hzx hxy)
      simp [pyInsert, hzy', hzx', hxy, strLtB_asymm hxy]

theorem pyInsert_comm (x y : String) (l : List String) :
    pyInsert x (pyInsert y l) = pyInsert y (pyInsert x l) := by
  by_cases hxy : strLtB x y = true
  · exact pyInsert_comm_of_lt hxy l
  · by_cases hyx : strLtB y x = true
    · exact (pyInsert_comm_of_lt hyx l).symm
    · rw [strLtB_conn (Bool.eq_false_iff.mpr hxy) (Bool.eq_false_iff.mpr hyx)]

theorem pySorted_perm_invariant {l₁ l₂ : List String} (h : l₁.Perm l₂) :
    pySorted l₁ = pySorted l₂ := by
  induction h with
  | nil => rfl
  | cons x _ ih => simp [pySorted, ih]
  | swap x y l => simp [pySorted, pyInsert_comm]
  | trans _ _ ih₁ ih₂ => rw [ih₁, ih₂]

/-- Association-list lookup with Python `dict` semantics (`data[key]`);
`vnone` default is never reached for genuine dict inputs, whose sorted key
list enumerates exactly the stored keys. -/
def vlookup (k : String) : List (String × PyVal) → PyVal
  | [] => .vnone
  | (k', v) :: rest => if k' = k then v else vlookup k rest

/-- `CacheHashMixin.dict_strategy`: `[(key, data[key]) for key in sorted(data)]`.
On the non-mapping shapes, which the source would fail on and no claim
exercises, the value is returned unchanged. -/
def dictStrategy : PyVal → PyVal
  | .vdict xs => .vlist ((pySorted (xs.map Prod.fst)).map (fun k => .vtuple [.vstr k, vlookup k xs]))
  | v => v

/-- `CacheHashMixin._hash_component`: `''.join([key, "{", repr(data), "}"])`
with `repr` already applied by the caller. -/
def hashComponent (key : String) (r : String) : String := key ++ "\x7b" ++ r ++ "\x7d"

/-- Python `':'.join(components)`. -/
def joinColon : List String → String
  | [] => ""
  | [x] => x
  | x :: y :: rest => x ++ ":" ++ joinColon (y :: rest)

/-- `CacheHashMixin.add_strategy`: strategies live in an `OrderedDict`, so
registration order is the list order. -/
def addStrategy (strategies : List (String × (PyVal → PyVal))) (key : String)
    (method : PyVal → PyVal) : List (String × (PyVal → PyVal)) :=
  strategies ++ [(key, method)]

/-- The string fed to the hash by `CacheHashMixin._build_hash`: one
`key{repr(strategy(data[key]))}` component per registered strategy, in
registration order, joined with `':'`.  The context is modelled as a total
function; the source looks up only registered names. -/
def buildHashInput (strategies : List (String × (PyVal → PyVal))) (ctx : String → PyVal) :
    String :=
  joinColon (strategies.map (fun p => hashComponent p.1 (reprPy (p.2 (ctx p.1)))))

/-- `CacheHashMixin._build_hash`; the SHA-1 hex digest is abstracted as an
arbitrary function `h` of the joined component string. -/
def buildHash (h : String → String) (strategies : List (String × (PyVal → PyVal)))
    (ctx : String → PyVal) : String :=
  h (buildHashInput strategies ctx)

/-- `CacheHashMixin._build_ctx_key`: `self.key + ":" + self._build_hash(ctx)`. -/
def buildCtxKey (h : String → String) (selfKey : String)
    (strategies : List (String × (PyVal → PyVal))) (ctx : String → PyVal) : String :=
  selfKey ++ ":" ++ buildHash h strategies ctx

theorem strAppend_cancel_right {a b t : String} (h : a ++ t = b ++ t) : a = b := by
  have hd := congrArg String.data h
  simp only [String.data_append] at hd
  exact String.ext (List.append_cancel_right hd)

theorem strAppend_cancel_left {a b t : String} (h : t ++ a = t ++ b) : a = b := by
  have hd := congrArg String.data h
  simp only [String.data_append] at hd
  exact String.ext (List.append_cancel_left hd)

theorem joinColon_cons_ne (x : String) {l : List String} (h : l ≠ []) :
    joinColon (x :: l) = x ++ ":" ++ joinColon l := by
  cases l with
  | nil => exact absurd rfl h
  | cons y ys => rfl

theorem joinColon_middle_inj : ∀ (P : List String) (c₁ c₂ : String) (Q : List String),
    joinColon (P ++ c₁ :: Q) = joinColon (P ++ c₂ :: Q) → c₁ = c₂ := by
  intro P
  induction P with
  | nil =>
    intro c₁ c₂ Q h
    cases Q with
    | nil => exact h
    | cons q qs =>
      rw [List.nil_append, List.nil_append] at h
      rw [joinColon_cons_ne c₁ (by simp), joinColon_cons_ne c₂ (by simp)] at h
      exact strAppend_cancel_right (strAppend_cancel_right (by
        simpa [← String.append_assoc] using h))
  | cons p P ih =>
    intro c₁ c₂ Q h
    rw [List.cons_append, List.cons_append] at h
    rw [joinColon_cons_ne p (by simp), joinColon_cons_ne p (by simp)] at h
    exact ih c₁ c₂ Q (strAppend_cancel_left (by
      simpa [← String.append_assoc] using h))

theorem hashComponent_inj {key r₁ r₂ : String} (h : hashComponent key r₁ = hashComponent key r₂) :
    r₁ = r₂ := by
  unfold hashComponent at h
  exact strAppend_cancel_left (strAppend_cancel_right (by
    simpa [← String.append_assoc] using h))

theorem buildHash_congr (h : String → String) (strategies : List (String × (PyVal → PyVal)))
    (ctx₁ ctx₂ : String → PyVal)
    (hagree : ∀ p ∈ strategies, p.2 (ctx₁ p.1) = p.2 (ctx₂ p.1)) :
    buildHash h strategies ctx₁ = buildHash h strategies ctx₂ := by
  unfold buildHash buildHashInput
  congr 1
  congr 1
  exact List.map_congr_left (fun p hp => by rw [hagree p hp])

theorem vlookup_eq_of_mem {k : String} {v : PyVal} : ∀ {l : List (String × PyVal)},
    (k, v) ∈ l → (l.map Prod.fst).Nodup → vlookup k l = v := by
  intro l
  induction l with
  | nil => intro hm _; simp at hm
  | cons p rest ih =>
    intro hm hnd
    obtain ⟨k', v'⟩ := p
    simp only [List.mem_cons] at hm
    simp only [List.map_cons, List.nodup_cons] at hnd
    rcases hm with hm | hm
    · injection hm.symm with hk hv
      subst hk
      subst hv
      simp [vlookup]
    · have hk' : ¬ k' = k := by
        intro he
        exact hnd.1 (he ▸ (List.mem_map.mpr ⟨(k, v), hm, rfl⟩))
      simp only [vlookup, if_neg hk']
      exact ih hm hnd.2

theorem vlookup_eq_of_not_mem {k : String} : ∀ {l : List (String × PyVal)},
    k ∉ l.map Prod.fst → vlookup k l = .vnone := by
  intro l
  induction l with
  | nil => intro _; rfl
  | cons p rest ih =>
    intro hm
    obtain ⟨k', v'⟩ := p
    simp only [List.map_cons, List.mem_cons] at hm
    push_neg at hm
    have hk' : ¬ k' = k := fun he => hm.1 he.symm
    simp only [vlookup, if_neg hk']
    exact ih hm.2

theorem vlookup_perm {l₁ l₂ : List (String × PyVal)} (hperm : l₁.Perm l₂)
    (hnd : (l₁.map Prod.fst).Nodup) (k : String) : vlookup k l₁ = vlookup k l₂ := by
  have hnd₂ : (l₂.map Prod.fst).Nodup := ((hperm.map Prod.fst).nodup_iff).mp hnd
  by_cases hk : k ∈ l₁.map Prod.fst
  · obtain ⟨⟨k', v⟩, hmem, hfst⟩ := List.mem_map.mp hk
    cases hfst
    rw [vlookup_eq_of_mem hmem hnd, vlookup_eq_of_mem (hperm.mem_iff.mp hmem) hnd₂]
  · rw [vlookup_eq_of_not_mem hk,
      vlookup_eq_of_not_mem (fun hc => hk (((hperm.map Prod.fst).mem_iff).mpr hc))]

theorem dictStrategy_perm {d₁ d₂ : List (String × PyVal)} (hperm : d₁.Perm d₂)
    (hnd : (d₁.map Prod.fst).Nodup) :
    dictStrategy (.vdict d₁) = dictStrategy (.vdict d₂) := by
  simp only [dictStrategy]
  congr 1
  rw [pySorted_perm_invariant (hperm.map Prod.fst)]
  exact List.map_congr_left (fun k _ => by rw [vlookup_perm hperm hnd k])

/-- The duration argument of a `set` call: `None`, the sentinel string
`'default'`, or a number of seconds. -/
inductive Duration where
  | dnone
  | ddefault
  | secs (n : Int)

/-- `CacheHandler._convert_duration_`: `None` resolves to one year of
seconds, the `'default'` sentinel to the handler's configured
`default_expire`, and a numeric duration is kept as is. -/
def convertDuration : Duration → Int → Int
  | .dnone, _ => 60 * 60 * 24 * 365
  | .ddefault, de => de
  | .secs n, _ => n

/-- `RamElement`: the per-entry record of the memory backend. -/
structure RamElement where
  value : PyVal
  exp : Int
  acc : Int

/-- The three interlocked structures of `RamCache`: the key-to-entry dict
and the two `heapq` lists of `(timestamp, key)` tuples.  A `heapq` heap is
a Python list whose behaviour, through `heappush`/`heappop`/`remove`, is
determined by its multiset of tuples, so each heap is modelled as an
unordered list. -/
structure RamState where
  data : List (String × RamElement)
  heapExp : List (Int × String)
  heapAcc : List (Int × String)

def emptyRam : RamState := ⟨[], [], []⟩

/-- Python `dict` lookup returning an option (`KeyError` at `none`). -/
def dictLookup {α : Type} (k : String) : List (String × α) → Option α
  | [] => none
  | (k', v) :: rest => if k' = k then some v else dictLookup k rest

/-- Python `dict` assignment `d[k] = v` (replaces in place or appends). -/
def dictInsert {α : Type} (k : String) (v : α) : List (String × α) → List (String × α)
  | [] => [(k, v)]
  | (k', v') :: rest => if k' = k then (k, v) :: rest else (k', v') :: dictInsert k v rest

/-- Python `del d[k]` on a key known present (call sites guard the lookup). -/
def dictRemove {α : Type} (k : String) : List (String × α) → List (String × α)
  | [] => []
  | (k', v') :: rest => if k' = k then rest else (k', v') :: dictRemove k rest

/-- Python `<` on `(float, str)` tuples: lexicographic. -/
def tupLtB (a b : Int × String) : Bool :=
  if a.1 < b.1 then true else if b.1 < a.1 then false else strLtB a.2 b.2

/-- The minimum tuple of a heap (`heap[0]`), `none` on an empty heap. -/
def heapMin : List (Int × String) → Option (Int × String)
  | [] => none
  | x :: xs =>
    match heapMin xs with
    | none => some x
    | some m => if tupLtB m x then some m else some x

/-- `heapq.heappop`: remove and return the smallest tuple; `none` models the
`IndexError` on an empty heap. -/
def heapPop (l : List (Int × String)) : Option ((Int × String) × List (Int × String)) :=
  match heapMin l with
  | none => none
  | some m => some (m, l.erase m)

/-- Python `list.remove(x)`: drop the first occurrence of the value `x`;
`none` models the `ValueError` when `x` is absent. -/
def pyListRemove (l : List (Int × String)) (x : Int × String) : Option (List (Int × String)) :=
  if x ∈ l then some (l.erase x) else none

/-- The first loop of `RamCache._prune`: pop expired roots off the expiry
heap, removing each one's access tuple and dict entry; push the first
non-expired root back and stop.  `fuel` is the heap size, which bounds the
number of iterations since every expired iteration shrinks the heap. -/
def pruneExpLoop : Nat → Int → RamState → Except PyErr RamState
  | 0, _, st => .ok st
  | fuel + 1, now, st =>
    match heapPop st.heapExp with
    | none => .ok st
    | some ((exp, rk), rest) =>
      if exp < now then
        match dictLookup rk st.data with
        | none => .error .keyError
        | some elem =>
          match pyListRemove st.heapAcc (elem.acc, rk) with
          | none => .error .valueError
          | some newAcc =>
            pruneExpLoop fuel now ⟨dictRemove rk st.data, rest, newAcc⟩
      else
        .ok { st with heapExp := (exp, rk) :: rest }

/-- The second loop of `RamCache._prune`: while the dict holds more than
`threshold` entries, pop the least-recently-accessed tuple, remove the
entry's expiry tuple and the entry.  `fuel` is one more than the access
heap size, enough for every reachable iteration; an empty-heap pop raises
`IndexError` exactly as `heapq.heappop` does. -/
def pruneAccLoop : Nat → Nat → RamState → Except PyErr RamState
  | 0, _, st => .ok st
  | fuel + 1, threshold, st =>
    if st.data.length > threshold then
      match heapPop st.heapAcc with
      | none => .error .indexError
      | some ((_, rk), rest) =>
        match dictLookup rk st.data with
        | none => .error .keyError
        | some elem =>
          match pyListRemove st.heapExp (elem.exp, rk) with
          | none => .error .valueError
          | some newExp =>
            pruneAccLoop fuel threshold ⟨dictRemove rk st.data, newExp, rest⟩
    else .ok st

/-- `RamCache._prune`.  The source calls `time.time()` again inside
`_prune`; the model reuses the caller's `now`, as no claim depends on the
sub-second drift between the two reads. -/
def ramPrune (threshold : Nat) (now : Int) (st : RamState) : Except PyErr RamState := do
  let st₁ ← pruneExpLoop st.heapExp.length now st
  pruneAccLoop (st₁.heapAcc.length + 1) threshold st₁

/-- `RamCache.get`: `KeyError` (missing key) is caught and yields `None`;
an expired entry yields `None` without mutation; otherwise the access
tuple is refreshed.  A `ValueError` from `heap_acc.remove` is not caught
by the `except KeyError` handler and propagates. -/
def ramGet (pfx : String) (key : String) (now : Int) (st : RamState) :
    Except PyErr (PyVal × RamState) :=
  let k := pfx ++ key
  match dictLookup k st.data with
  | none => .ok (.vnone, st)
  | some elem =>
    if elem.exp < now then .ok (.vnone, st)
    else
      match pyListRemove st.heapAcc (elem.acc, k) with
      | none => .error .valueError
      | some rest =>
        .ok (elem.value,
          ⟨dictInsert k { elem with acc := now } st.data, st.heapExp, (now, k) :: rest⟩)

def ramGetValue (pfx key : String) (now : Int) (st : RamState) : Except PyErr PyVal :=
  (ramGet pfx key now st).map Prod.fst

/-- `RamCache.set`: prefix the key, normalize the duration, prune, then
push `(expiration, key)` and `(now, key)` and store the new element.  The
old tuples of a replaced key are not removed. -/
def ramSet (pfx : String) (threshold : Nat) (de : Int) (key : String) (value : PyVal)
    (d : Duration) (now : Int) (st : RamState) : Except PyErr RamState := do
  let k := pfx ++ key
  let expiration := now + convertDuration d de
  let st₁ ← ramPrune threshold now st
  return ⟨dictInsert k ⟨value, expiration, now⟩ st₁.data,
    (expiration, k) :: st₁.heapExp, (now, k) :: st₁.heapAcc⟩

/-- `RamCache.clear`: with a key, remove its entry and both tuples, any
exception returning early (mutations already applied persist, so a failed
`heap_exp.remove` still leaves `heap_acc` shortened); with no key, wipe
all three structures. -/
def ramClear (pfx : String) (key : Option String) (st : RamState) : RamState :=
  match key with
  | some key =>
    let k := pfx ++ key
    match dictLookup k st.data with
    | none => st
    | some rv =>
      match pyListRemove st.heapAcc (rv.acc, k) with
      | none => st
      | some newAcc =>
        match pyListRemove st.heapExp (rv.exp, k) with
        | none => { st with heapAcc := newAcc }
        | some newExp => ⟨dictRemove k st.data, newExp, newAcc⟩
  | none => ⟨[], [], []⟩

/-- `CacheHandler.get_or_set` instantiated at the memory backend: return
the cached value unless it is `None`, in which case the producer runs and
its result is stored.  The boolean records whether the producer was
invoked (its invocation precedes the inner `set`, so it is reported even
when that `set` raises). -/
def ramGetOrSet (pfx : String) (threshold : Nat) (de : Int) (key : String)
    (f : Unit → PyVal) (d : Duration) (now : Int) (st : RamState) :
    Bool × Except PyErr (PyVal × RamState) :=
  match ramGet pfx key now st with
  | .error e => (false, .error e)
  | .ok (v, st₁) =>
    match v with
    | .vnone =>
      let val := f ()
      (true, (ramSet pfx threshold de key val d now st₁).map (fun st₂ => (val, st₂)))
    | v => (false, .ok (v, st₁))

/-- One client-visible operation on the memory backend, with the
`time.time()` reading it observes. -/
inductive RamOp where
  | set (key : String) (value : PyVal) (d : Duration) (now : Int)
  | get (key : String) (now : Int)
  | clear (key : Option String)

def ramStep (pfx : String) (threshold : Nat) (de : Int) : RamOp → RamState → Except PyErr RamState
  | .set k v d now, st => ramSet pfx threshold de k v d now st
  | .get k now, st => (ramGet pfx k now st).map Prod.snd
  | .clear k, st => .ok (ramClear pfx k st)

/-- Run a sequence of operations; an uncaught exception aborts the run. -/
def ramRun (pfx : String) (threshold : Nat) (de : Int) : List RamOp → RamState →
    Except PyErr RamState
  | [], st => .ok st
  | op :: ops, st =>
    match ramStep pfx threshold de op st with
    | .error e => .error e
    | .ok st' => ramRun pfx threshold de ops st'

/-- What reading a cache file can observe: opening it raises
(`unreadable`), the first `pickle.load` raises (`badHeader`), or a record
with an expiry header and a payload whose own deserialization may raise
(`payload = none`). -/
inductive FileContent where
  | unreadable
  | badHeader
  | record (exp : Int) (payload : Option PyVal)

/-- One directory entry of the disk backend's cache directory.  `tmp`
marks a name carrying the `'.__wp_cache'` transaction suffix.  The SHA-1
filename derivation is modelled as the key itself (an injective renaming;
hash collisions are an accepted open risk of the design and exercised by
no claim). -/
structure DirEntry where
  name : String
  tmp : Bool
  content : FileContent

/-- `DiskCache._list_dir`: the non-temporary entries, in listing order. -/
def listDirD (dir : List DirEntry) : List DirEntry :=
  dir.filter (fun e => !e.tmp)

/-- Open a file by name (`os.open`/`LockedFile`); `none` when missing. -/
def getFileD : List DirEntry → String → Option DirEntry
  | [], _ => none
  | e :: rest, name => if e.name = name then some e else getFileD rest name

/-- `DiskCache._del_file` removes the named file; the source swallows a
failing `os.remove`, whose only effect would be to leave the file in
place, a fault no claim injects. -/
def removeFileD (dir : List DirEntry) (name : String) : List DirEntry :=
  dir.eraseP (fun e => e.name = name)

/-- `os.rename(tmp, filename)`: atomically replace or create `filename`. -/
def setFileD : List DirEntry → String → FileContent → List DirEntry
  | [], name, c => [⟨name, false, c⟩]
  | e :: rest, name, c =>
    if e.name = name then ⟨name, false, c⟩ :: rest else e :: setFileD rest name c

/-- The scan loop of `DiskCache._prune`: read each listed file's expiry
header and delete it when `exp <= now or i % 3 == 0`; any exception while
reading a header is caught by the surrounding `except Exception: pass`,
abandoning the rest of the pass with earlier deletions kept. -/
def diskScan (now : Int) : Nat → List DirEntry → List DirEntry → List DirEntry
  | _, [], dir => dir
  | i, e :: rest, dir =>
    match e.content with
    | .record exp _ =>
      diskScan now (i + 1) rest (if exp ≤ now || i % 3 == 0 then removeFileD dir e.name else dir)
    | _ => dir

/-- `DiskCache._prune`: list the directory (outside any `try`, so a
failing `os.listdir` raises out of `_prune`), and scan only when the
listing exceeds the threshold. -/
def diskPrune (threshold : Nat) (now : Int) (listFails : Bool) (dir : List DirEntry) :
    Except PyErr (List DirEntry) :=
  if listFails then .error .osError
  else
    let entries := listDirD dir
    if entries.length > threshold then .ok (diskScan now 0 entries dir)
    else .ok dir

/-- `DiskCache.get`: everything from the `LockedFile` open to the payload
deserialization sits in one `try` whose handler returns `None`. -/
def diskGet (dir : List DirEntry) (key : String) (now : Int) : PyVal :=
  match getFileD dir key with
  | none => .vnone
  | some e =>
    match e.content with
    | .unreadable => .vnone
    | .badHeader => .vnone
    | .record exp payload =>
      if exp < now then .vnone
      else
        match payload with
        | none => .vnone
        | some v => v

/-- Where the guarded write block of `DiskCache.set` fails, if anywhere.
The `try` at cache.py lines 275-284 covers `mkstemp`, both
`pickle.dump` calls, the `os.rename`, and then the `os.chmod` — the
chmod runs *after* the rename — with `except Exception: pass` around
all of them.  A fault before the rename leaves the target file
untouched; a fault in the trailing chmod is swallowed with the new
record already renamed into place. -/
inductive WriteFault where
  | nofault
  | beforeRename
  | chmodAfterRename

/-- `DiskCache.set`: prune, then write expiry and payload to a fresh
temporary file, rename it over the target, and restrict its
permissions; the whole write block sits in `try ... except Exception:
pass`.  A `beforeRename` fault leaves the directory as pruning left it
(the orphaned temporary file is invisible to `get` and excluded from
listings, hence not modelled); a `chmodAfterRename` fault is swallowed
after the rename, so the new record stays installed (the permission
bits themselves have no further modelled effect).  The prune's listing
error is outside that handler and propagates. -/
def diskSet (threshold : Nat) (de : Int) (key : String) (value : PyVal) (d : Duration)
    (now : Int) (listFails : Bool) (wf : WriteFault) (dir : List DirEntry) :
    Except PyErr (List DirEntry) := do
  let expiration := now + convertDuration d de
  let dir₁ ← diskPrune threshold now listFails dir
  match wf with
  | .beforeRename => return dir₁
  | .chmodAfterRename => return setFileD dir₁ key (.record expiration (some value))
  | .nofault => return setFileD dir₁ key (.record expiration (some value))

/-- `DiskCache.clear`: with a key, delete its file ignoring errors; with
no key, delete every non-temporary file. -/
def diskClear (key : Option String) (dir : List DirEntry) : List DirEntry :=
  match key with
  | some key => removeFileD dir key
  | none => (listDirD dir).foldl (fun d e => removeFileD d e.name) dir

/-- Modelled from the spec sentence for claim C7: when the listing
exceeds the threshold, a listed file is deleted exactly when its index
precedes the first header-read error and `expiresAt <= now` or
`i % 3 == 0`; an error silently ends the pass. -/
def pruneMarkedNames (now : Int) : Nat → List DirEntry → List String
  | _, [] => []
  | i, e :: rest =>
    match e.content with
    | .record exp _ =>
      if exp ≤ now || i % 3 == 0 then e.name :: pruneMarkedNames now (i + 1) rest
      else pruneMarkedNames now (i + 1) rest
    | _ => []

/-- Modelled from the spec sentences for claim C7: the pruning pass as the
claim describes it, a no-op at or below the threshold and otherwise the
removal of exactly the marked names, in listing order. -/
def diskPruneSpec (threshold : Nat) (now : Int) (dir : List DirEntry) : List DirEntry :=
  let entries := listDirD dir
  if entries.length > threshold then
    (pruneMarkedNames now 0 entries).foldl removeFileD dir
  else dir

theorem diskScan_eq_marked (now : Int) : ∀ (i : Nat) (entries dir : List DirEntry),
    diskScan now i entries dir = (pruneMarkedNames now i entries).foldl removeFileD dir := by
  intro i entries
  induction entries generalizing i with
  | nil => intro dir; rfl
  | cons e rest ih =>
    intro dir
    match hc : e.content with
    | .record exp payload =>
      by_cases hdel : exp ≤ now || i % 3 == 0
      · simp [diskScan, pruneMarkedNames, hc, hdel, ih]
      · simp [diskScan, pruneMarkedNames, hc, hdel, ih]
    | .unreadable => simp [diskScan, pruneMarkedNames, hc]
    | .badHeader => simp [diskScan, pruneMarkedNames, hc]

/-- `RedisCache._dump_obj`: an exact-type integer is sent as its decimal
text with no marker; every other value is one `'!'` marker byte followed
by the pickled blob.  `pickleDumps` abstracts `pickle.dumps`; byte
strings are modelled as `String`. -/
def dumpObj (pickleDumps : PyVal → String) (v : PyVal) : String :=
  match v with
  | .vint n => intDecStr n
  | v => "!" ++ pickleDumps v

/-- `RedisCache._load_obj`: `None` passes through; a leading `'!'` is
stripped and the rest unpickled, a `PickleError` yielding `None`;
otherwise the bytes are parsed as an integer, a `ValueError` yielding
`None`.  `pickleLoads` abstracts `pickle.loads`, `none` modelling its
failure. -/
def loadObj (pickleLoads : String → Option PyVal) (value : Option String) : PyVal :=
  match value with
  | none => .vnone
  | some s =>
    if s.data.head? = some '!' then
      match pickleLoads (String.mk s.data.tail) with
      | some v => v
      | none => .vnone
    else
      match parseIntPy s with
      | some n => .vint n
      | none => .vnone

/-- A value the source can hand to `redis.Redis.delete`: a key name, or —
through the slip in the wildcard branch of `clear` — the whole Python
list of names returned by `keys()`.  No stored key (a string) equals a
Python list, so a list argument deletes nothing; current client
libraries would instead reject it, and either behaviour deletes no
matching key. -/
inductive RedisArg where
  | strA (s : String)
  | listA (xs : List String)

/-- Prefix test on character lists (kernel-reducible replacement for
`String.isPrefixOf`). -/
def listIsPrefixB : List Char → List Char → Bool
  | [], _ => true
  | _ :: _, [] => false
  | a :: as, b :: bs => if a = b then listIsPrefixB as bs else false

/-- `KEYS pattern` for the only pattern shape the source ever sends: a
literal prefix followed by one trailing `'*'`, matching glob-style. -/
def redisKeys (store : List (String × String)) (pattern : String) : List String :=
  (store.map Prod.fst).filter (fun k => listIsPrefixB pattern.data.dropLast k.data)

/-- `DEL`: remove every named key, counting the ones that existed. -/
def redisDelete (store : List (String × String)) (args : List RedisArg) :
    List (String × String) × Nat :=
  match args with
  | [] => (store, 0)
  | .strA s :: rest =>
    let hit := (store.map Prod.fst).contains s
    let (store', n) := redisDelete (store.filter (fun p => !(p.1 = s : Bool))) rest
    (store', if hit then n + 1 else n)
  | .listA _ :: rest => redisDelete store rest

/-- `RedisCache.clear`: the wildcard branch passes the result of
`keys()` as the single argument of a `delete` call and binds the
returned count to `keys`; a nonzero count would then be unpacked by
`delete(*keys)`, a `TypeError`.  The no-key branch deletes everything
under the configured prefix, or flushes the whole store without one. -/
def redisClear (pfx : String) (store : List (String × String)) (key : Option String) :
    Except PyErr (List (String × String)) :=
  match key with
  | some key =>
    let k := pfx ++ key
    if k.data.getLast? = some '*' then
      let ks := redisKeys store k
      let (store₁, cnt) := redisDelete store [.listA ks]
      if cnt ≠ 0 then .error .typeError
      else .ok store₁
    else .ok (redisDelete store [.strA k]).1
  | none =>
    if pfx ≠ "" then
      let ks := redisKeys store (pfx ++ "*")
      if ks.isEmpty then .ok store
      else .ok (redisDelete store (ks.map .strA)).1
    else .ok []

/-- `RedisCache.get`: prefix the key, read, decode. -/
def redisGet (pickleLoads : String → Option PyVal) (pfx : String)
    (store : List (String × String)) (key : String) : PyVal :=
  loadObj pickleLoads ((store.find? (fun p => p.1 = pfx ++ key)).map Prod.snd)

/-- `RedisCache.set`: prefix the key and store the encoded value with
`SETEX` and the normalized duration as its time to live. -/
def redisSet (pickleDumps : PyVal → String) (pfx : String) (de : Int) (key : String)
    (value : PyVal) (d : Duration) (store : List (String × String)) :
    List (String × String) × Int :=
  ((pfx ++ key, dumpObj pickleDumps value) ::
      store.filter (fun p => !(p.1 = pfx ++ key : Bool)),
    convertDuration d de)

theorem dictLookup_dictInsert_self {α : Type} (k : String) (v : α) :
    ∀ l : List (String × α), dictLookup k (dictInsert k v l) = some v := by
  intro l
  induction l with
  | nil => simp [dictInsert, dictLookup]
  | cons p rest ih =>
    obtain ⟨k', v'⟩ := p
    by_cases h : k' = k
    · simp [dictInsert, dictLookup, h]
    · simp [dictInsert, dictLookup, h, ih]

theorem ramSet_stores_entry {pfx : String} {threshold : Nat} {de : Int} {key : String}
    {value : PyVal} {d : Duration} {now : Int} {st st' : RamState}
    (hset : ramSet pfx threshold de key value d now st = .ok st') :
    dictLookup (pfx ++ key) st'.data = some ⟨value, now + convertDuration d de, now⟩ ∧
    (now + convertDuration d de, pfx ++ key) ∈ st'.heapExp ∧
    (now, pfx ++ key) ∈ st'.heapAcc := by
  unfold ramSet at hset
  cases hp : ramPrune threshold now st with
  | error e =>
    rw [hp] at hset
    simp [Bind.bind, Except.bind] at hset
  | ok st₁ =>
    rw [hp] at hset
    simp only [Bind.bind, Except.bind, pure, Except.pure, Except.ok.injEq] at hset
    rw [← hset]
    exact ⟨dictLookup_dictInsert_self _ _ _, List.mem_cons_self _ _, List.mem_cons_self _ _⟩

/-- C9: for every `set` call, a `None` duration resolves to one year of
seconds, the `'default'` sentinel to the backend's configured default
expiry, and a numeric duration is kept as is; given a non-negative
numeric input and a non-negative configured default the normalized
duration is a concrete value `≥ 0`, and the stored entry's expiration is
`now + duration`. -/
theorem claimC9_duration_normalization (d : Duration) (de now : Int)
    (hnum : ∀ n, d = .secs n → 0 ≤ n) (hde : 0 ≤ de) :
    0 ≤ convertDuration d de ∧
    (d = .dnone → convertDuration d de = 60 * 60 * 24 * 365) ∧
    (d = .ddefault → convertDuration d de = de) ∧
    (∀ n, d = .secs n → convertDuration d de = n) ∧
    (∀ pfx threshold key value st st',
      ramSet pfx threshold de key value d now st = .ok st' →
      dictLookup (pfx ++ key) st'.data = some ⟨value, now + convertDuration d de, now⟩) := by
  refine ⟨?_, ?_, ?_, ?_, ?_⟩
  · cases hd : d with
    | dnone => norm_num [convertDuration]
    | ddefault => exact hde
    | secs n => exact hnum n hd
  · intro h; subst h; rfl
  · intro h; subst h; rfl
  · intro n h; subst h; rfl
  · intro pfx threshold key value st st' hset
    exact (ramSet_stores_entry hset).1

/-- Witness for C9 at a numeric duration of `7` and at an absent
duration, with default expiry `300`. -/
theorem claimC9_duration_normalization_witness :
    0 ≤ convertDuration (.secs 7) 300 ∧ convertDuration .dnone 300 = 60 * 60 * 24 * 365 :=
  ⟨(claimC9_duration_normalization (.secs 7) 300 0
      (fun n hn => by injection hn with h; omega) (by norm_num)).1,
   (claimC9_duration_normalization .dnone 300 0
      (fun n hn => by cases hn) (by norm_num)).2.1 rfl⟩

/-- C1: the claim that on every backend, after any prior operation
sequence, `set(k, v, d)` followed immediately by `get(k)` within `d`
seconds returns `v`, fails on the memory backend: after
`set("k",1,10)` at `t=0`, `set("k",2,10)` at `t=1` (which leaves the
first set's heap tuples behind) and `clear("k")` at `t=2` (which removes
only the current tuples), the stale `(10, "k")` expiry tuple makes the
pruning pass of `set("k",5,100)` at `t=20` look up the deleted dict entry
and raise `KeyError`, and the following `get("k")` returns `None`, not
`5`. -/
theorem claimC1_set_then_get_violated :
    ramRun "" 500 300
      [.set "k" (.vint 1) (.secs 10) 0, .set "k" (.vint 2) (.secs 10) 1, .clear (some "k"),
       .set "k" (.vint 5) (.secs 100) 20] emptyRam = .error .keyError ∧
    (ramRun "" 500 300
      [.set "k" (.vint 1) (.secs 10) 0, .set "k" (.vint 2) (.secs 10) 1, .clear (some "k")]
      emptyRam).map (fun st => ramGetValue "" "k" 20 st) = .ok (.ok .vnone) ∧
    PyVal.vnone ≠ PyVal.vint 5 :=
  ⟨rfl, rfl, fun h => PyVal.noConfusion h⟩

/-- C2: the claim that the two heaps and the map always hold the same
keys with exactly one tuple per live key fails: `RamCache.set` never
removes a replaced key's old tuples, so two consecutive `set("a", ...)`
calls leave two tuples in each heap against a single map entry. -/
theorem claimC2_one_tuple_per_key_violated :
    (ramRun "" 500 300
      [.set "a" (.vint 1) (.secs 100) 0, .set "a" (.vint 2) (.secs 100) 1] emptyRam).map
        (fun st => (st.heapExp.length, st.heapAcc.length, st.data.length)) = .ok (2, 2, 1) ∧
    (2 : Nat) ≠ 1 :=
  ⟨rfl, by decide⟩

/-- C3 as stated is false on the code: pruning runs at the start of the
next `set`, so with threshold 2, after `set("a",1,100)`, `set("b",2,100)`,
`get("a")`, `set("c",3,100)` the cache holds three entries and
`get("b")` still returns `2`, not absent. -/
theorem claimC3_counterexample :
    (ramRun "" 2 300
      [.set "a" (.vint 1) (.secs 100) 0, .set "b" (.vint 2) (.secs 100) 1, .get "a" 2,
       .set "c" (.vint 3) (.secs 100) 3] emptyRam).map
        (fun st => (st.data.length, ramGetValue "" "b" 4 st)) = .ok (3, .ok (.vint 2)) ∧
    (3 : Nat) ≠ 2 ∧ PyVal.vint 2 ≠ PyVal.vnone :=
  ⟨rfl, by decide, fun h => PyVal.noConfusion h⟩

/-- C3 amended: capacity eviction happens at the start of the *next*
`set`, so the scenario's third insertion leaves all three keys
retrievable; the following `set("d",4,100)` evicts `"b"` as the
least-recently-accessed entry, after which `get("b")` returns absent
while `"a"`, `"c"` (and `"d"`) remain retrievable and the count is back
at threshold + 1. -/
theorem claimC3_eviction_on_next_set :
    (ramRun "" 2 300
      [.set "a" (.vint 1) (.secs 100) 0, .set "b" (.vint 2) (.secs 100) 1, .get "a" 2,
       .set "c" (.vint 3) (.secs 100) 3, .set "d" (.vint 4) (.secs 100) 5] emptyRam).map
        (fun st => (st.data.length, ramGetValue "" "b" 6 st, ramGetValue "" "a" 6 st,
          ramGetValue "" "c" 6 st, ramGetValue "" "d" 6 st)) =
      .ok (3, .ok .vnone, .ok (.vint 1), .ok (.vint 3), .ok (.vint 4)) :=
  rfl

/-- C8: the wildcard branch of `RedisCache.clear` passes the whole list
returned by `keys()` as the single argument of one `delete` call (a slip;
compare the prefix branch), so with keys matching `"cache:a*"` present,
`clear("a*")` deletes nothing; the omitted-key paths do behave as
claimed: with the prefix configured every prefixed key is deleted, and
with no prefix the store is flushed. -/
theorem claimC8_wildcard_clear_broken :
    redisClear "cache:" [("cache:a", "1"), ("cache:ab", "2"), ("x", "3")] (some "a*") =
      .ok [("cache:a", "1"), ("cache:ab", "2"), ("x", "3")] ∧
    redisKeys [("cache:a", "1"), ("cache:ab", "2"), ("x", "3")] "cache:a*" =
      ["cache:a", "cache:ab"] ∧
    ["cache:a", "cache:ab"] ≠ ([] : List String) ∧
    redisClear "cache:" [("cache:a", "1"), ("cache:ab", "2"), ("x", "3")] none =
      .ok [("x", "3")] ∧
    redisClear "" [("cache:a", "1"), ("cache:ab", "2"), ("x", "3")] none = .ok [] :=
  ⟨rfl, rfl, by decide, rfl, rfl⟩

theorem ramGet_after_set_none {pfx : String} {threshold : Nat} {de : Int} {key : String}
    {d : Duration} {now : Int} {st st' : RamState}
    (hset : ramSet pfx threshold de key .vnone d now st = .ok st') (now' : Int) :
    ∃ st'', ramGet pfx key now' st' = .ok (.vnone, st'') := by
  obtain ⟨hl, _, hacc⟩ := ramSet_stores_entry hset
  have hrem : pyListRemove st'.heapAcc (now, pfx ++ key) =
      some (st'.heapAcc.erase (now, pfx ++ key)) := by
    simp [pyListRemove, hacc]
  by_cases he : now + convertDuration d de < now'
  · exact ⟨st', by simp [ramGet, hl, he]⟩
  · refine ⟨⟨dictInsert (pfx ++ key) ⟨.vnone, now + convertDuration d de, now'⟩ st'.data,
      st'.heapExp, (now', pfx ++ key) :: st'.heapAcc.erase (now, pfx ++ key)⟩, ?_⟩
    simp only [ramGet, hl, he, if_false, hrem]

/-- C10: the absent result is the same value as a stored `None`, so after
`set(k, None, d)` a `get(k)` is indistinguishable from a miss (both
return `None`), and `get_or_set` invokes its producer on every call for
which the cached value (or the just-produced one, stored as `None` for
the next call) is `None`. -/
theorem claimC10_none_indistinguishable_from_miss
    (pfx : String) (threshold : Nat) (de : Int) (key : String) (d d' : Duration)
    (now now' : Int) (st st' : RamState) (f : Unit → PyVal) :
    (dictLookup (pfx ++ key) st.data = none → ramGetValue pfx key now st = .ok .vnone) ∧
    (ramSet pfx threshold de key .vnone d now st = .ok st' →
      ramGetValue pfx key now' st' = .ok .vnone) ∧
    (∀ st₁, ramGet pfx key now st = .ok (.vnone, st₁) →
      (ramGetOrSet pfx threshold de key f d now st).1 = true) ∧
    (ramSet pfx threshold de key .vnone d now st = .ok st' →
      (ramGetOrSet pfx threshold de key f d' now' st').1 = true) := by
  refine ⟨?_, ?_, ?_, ?_⟩
  · intro h
    simp [ramGetValue, ramGet, h, Except.map]
  · intro hset
    obtain ⟨st'', hg⟩ := ramGet_after_set_none hset now'
    simp [ramGetValue, hg, Except.map]
  · intro st₁ hg
    simp [ramGetOrSet, hg]
  · intro hset
    obtain ⟨st'', hg⟩ := ramGet_after_set_none hset now'
    simp [ramGetOrSet, hg]

/-- Witness for C10: after `set("k", None, 60)` at `t=0` (its post-state
written out), `get` at `t=1` returns `None` and `get_or_set` at `t=1`
invokes its producer. -/
theorem claimC10_none_indistinguishable_from_miss_witness :
    ramGetValue "" "k" 1 ⟨[("k", ⟨.vnone, 60, 0⟩)], [(60, "k")], [(0, "k")]⟩ = .ok .vnone ∧
    (ramGetOrSet "" 500 300 "k" (fun _ => .vint 9) (.secs 60) 1
      ⟨[("k", ⟨.vnone, 60, 0⟩)], [(60, "k")], [(0, "k")]⟩).1 = true :=
  ⟨(claimC10_none_indistinguishable_from_miss "" 500 300 "k" (.secs 60) (.secs 60) 0 1
      emptyRam ⟨[("k", ⟨.vnone, 60, 0⟩)], [(60, "k")], [(0, "k")]⟩ (fun _ => .vint 9)).2.1 rfl,
   (claimC10_none_indistinguishable_from_miss "" 500 300 "k" (.secs 60) (.secs 60) 0 1
      emptyRam ⟨[("k", ⟨.vnone, 60, 0⟩)], [(60, "k")], [(0, "k")]⟩ (fun _ => .vint 9)).2.2.2 rfl⟩

theorem diskPrune_noFail_ok (threshold : Nat) (now : Int) (dir : List DirEntry) :
    ∃ dir', diskPrune threshold now false dir = .ok dir' := by
  unfold diskPrune
  by_cases h : (listDirD dir).length > threshold
  · exact ⟨diskScan now 0 (listDirD dir) dir, by simp [h]⟩
  · exact ⟨dir, by simp [h]⟩

/-- C4 as stated is false on the code in three ways: (i) `DiskCache._prune`
calls `_list_dir` outside any `try` (cache.py line 239) and `set` does not
guard the `_prune()` call (line 274), so a failure to list the cache
directory — a steady-state storage fault — propagates out of `set`;
(ii) a `set` whose write fails before the rename has still run pruning
first, so the cache is not always left as if the `set` never happened
(here a write-failing `set` shrinks the directory from two files to
one); (iii) the `os.chmod` at line 282 follows the `os.rename` inside
the same swallowing `try`, so a `set` whose write fails at that step
leaves the new value installed and observable (here a fresh key reads
back as `9` although its write "failed"). -/
theorem claimC4_counterexample :
    diskSet 500 300 "k" (.vint 1) (.secs 10) 0 true .nofault [] = .error .osError ∧
    (diskSet 1 300 "k" (.vint 9) (.secs 10) 0 false .beforeRename
      [⟨"a", false, .record 100 (some (.vint 1))⟩,
       ⟨"b", false, .record 100 (some (.vint 2))⟩]).map List.length = .ok 1 ∧
    (1 : Nat) ≠ 2 ∧
    diskGet [] "k" 1 = .vnone ∧
    (diskSet 500 300 "k" (.vint 9) (.secs 10) 0 false .chmodAfterRename []).map
      (fun dir' => diskGet dir' "k" 1) = .ok (.vint 9) ∧
    PyVal.vint 9 ≠ PyVal.vnone :=
  ⟨rfl, rfl, by decide, rfl, rfl, fun h => PyVal.noConfusion h⟩

theorem getFileD_setFileD_self (key : String) (c : FileContent) :
    ∀ dir : List DirEntry, getFileD (setFileD dir key c) key = some ⟨key, false, c⟩ := by
  intro dir
  induction dir with
  | nil => simp [setFileD, getFileD]
  | cons e rest ih =>
    by_cases h : e.name = key
    · simp [setFileD, getFileD, h]
    · simp [setFileD, getFileD, h, ih]

/-- C4 amended: `get` returns absent and never raises when the file is
missing, unreadable, expired, or fails to deserialize (header or
payload); `set` absorbs a write failure at any step and, provided
listing the cache directory succeeds, raises no exception at all — a
listing failure during pruning is the one steady-state fault that
propagates.  The post-state of a failed write depends on the step: a
failure before the rename leaves the directory exactly as the pruning
pass (which runs first) left it, the new value never observable, while
a failure of the chmod that follows the rename is swallowed with the
new record already installed, a subsequent unexpired `get` returning
the new value. -/
theorem claimC4_disk_error_absorption (dir : List DirEntry) (key : String) (now now' : Int)
    (v : PyVal) (d : Duration) (threshold : Nat) (de : Int) :
    (getFileD dir key = none → diskGet dir key now = .vnone) ∧
    (∀ e, getFileD dir key = some e → e.content = .unreadable → diskGet dir key now = .vnone) ∧
    (∀ e, getFileD dir key = some e → e.content = .badHeader → diskGet dir key now = .vnone) ∧
    (∀ e exp p, getFileD dir key = some e → e.content = .record exp p → exp < now →
      diskGet dir key now = .vnone) ∧
    (∀ e exp, getFileD dir key = some e → e.content = .record exp none →
      diskGet dir key now = .vnone) ∧
    (diskSet threshold de key v d now false .beforeRename dir =
      diskPrune threshold now false dir) ∧
    (diskSet threshold de key v d now false .chmodAfterRename dir =
      diskSet threshold de key v d now false .nofault dir) ∧
    (∀ dir'', diskSet threshold de key v d now false .chmodAfterRename dir = .ok dir'' →
      ¬ now + convertDuration d de < now' → diskGet dir'' key now' = v) ∧
    (∀ wf, ∃ dir', diskSet threshold de key v d now false wf dir = .ok dir') := by
  refine ⟨?_, ?_, ?_, ?_, ?_, ?_, rfl, ?_, ?_⟩
  · intro h
    simp [diskGet, h]
  · intro e hf hc
    simp [diskGet, hf, hc]
  · intro e hf hc
    simp [diskGet, hf, hc]
  · intro e exp p hf hc hexp
    simp [diskGet, hf, hc, hexp]
  · intro e exp hf hc
    simp only [diskGet, hf, hc]
    by_cases h : exp < now <;> simp [h]
  · unfold diskSet diskPrune
    by_cases h : (listDirD dir).length > threshold
    · simp [h, Bind.bind, Except.bind, pure, Except.pure]
    · simp [h, Bind.bind, Except.bind, pure, Except.pure]
  · intro dir'' hset hne
    obtain ⟨dir', hp⟩ := diskPrune_noFail_ok threshold now dir
    unfold diskSet at hset
    rw [hp] at hset
    simp only [Bind.bind, Except.bind, pure, Except.pure, Except.ok.injEq] at hset
    rw [← hset]
    simp [diskGet, getFileD_setFileD_self, hne]
  · intro wf
    obtain ⟨dir', hp⟩ := diskPrune_noFail_ok threshold now dir
    unfold diskSet
    rw [hp]
    cases wf
    · exact ⟨setFileD dir' key (.record (now + convertDuration d de) (some v)),
        by simp [Bind.bind, Except.bind, pure, Except.pure]⟩
    · exact ⟨dir', by simp [Bind.bind, Except.bind, pure, Except.pure]⟩
    · exact ⟨setFileD dir' key (.record (now + convertDuration d de) (some v)),
        by simp [Bind.bind, Except.bind, pure, Except.pure]⟩

/-- Witness for C4 at a concrete directory: a missing file reads as
absent, an expired record reads as absent, a `set` failing before the
rename equals bare pruning, a `set` failing at the trailing chmod
leaves the new value readable, and a fault-free `set` returns without
error. -/
theorem claimC4_disk_error_absorption_witness :
    diskGet [⟨"a", false, .record 3 (some (.vint 1))⟩] "zz" 5 = .vnone ∧
    diskGet [⟨"a", false, .record 3 (some (.vint 1))⟩] "a" 5 = .vnone ∧
    diskSet 500 300 "a" (.vint 2) (.secs 10) 5 false .beforeRename
      [⟨"a", false, .record 3 (some (.vint 1))⟩] =
      diskPrune 500 5 false [⟨"a", false, .record 3 (some (.vint 1))⟩] ∧
    diskGet [⟨"a", false, .record 15 (some (.vint 2))⟩] "a" 6 = .vint 2 ∧
    (∃ dir', diskSet 500 300 "a" (.vint 2) (.secs 10) 5 false .nofault
      [⟨"a", false, .record 3 (some (.vint 1))⟩] = .ok dir') :=
  ⟨(claimC4_disk_error_absorption [⟨"a", false, .record 3 (some (.vint 1))⟩] "zz" 5 6
      (.vint 2) (.secs 10) 500 300).1 rfl,
   (claimC4_disk_error_absorption [⟨"a", false, .record 3 (some (.vint 1))⟩] "a" 5 6
      (.vint 2) (.secs 10) 500 300).2.2.2.1 _ 3 (some (.vint 1)) rfl rfl (by norm_num),
   (claimC4_disk_error_absorption [⟨"a", false, .record 3 (some (.vint 1))⟩] "a" 5 6
      (.vint 2) (.secs 10) 500 300).2.2.2.2.2.1,
   (claimC4_disk_error_absorption [⟨"a", false, .record 3 (some (.vint 1))⟩] "a" 5 6
      (.vint 2) (.secs 10) 500 300).2.2.2.2.2.2.2.1
     [⟨"a", false, .record 15 (some (.vint 2))⟩] rfl (by decide),
   (claimC4_disk_error_absorption [⟨"a", false, .record 3 (some (.vint 1))⟩] "a" 5 6
      (.vint 2) (.secs 10) 500 300).2.2.2.2.2.2.2.2 .nofault⟩

/-- C7: a pruning pass is a no-op when the non-temporary listing does not
exceed the threshold; above it, iterating the listing with index `i`, a
file is deleted exactly when its expiry header was read without error
before any failure and `expiresAt <= now` or `i % 3 == 0`; any
header-read error silently abandons the remainder of the pass.  Stated
as equality with `diskPruneSpec`, the pass as the claim words it. -/
theorem claimC7_prune_rule (threshold : Nat) (now : Int) (dir : List DirEntry) :
    diskPrune threshold now false dir = .ok (diskPruneSpec threshold now dir) ∧
    ((listDirD dir).length ≤ threshold → diskPrune threshold now false dir = .ok dir) := by
  constructor
  · unfold diskPrune diskPruneSpec
    by_cases h : (listDirD dir).length > threshold
    · simp [h, diskScan_eq_marked]
    · simp [h]
  · intro h
    unfold diskPrune
    simp [show ¬ (listDirD dir).length > threshold by omega]

/-- Witness for C7: a four-file directory over threshold 2 — index 0
deleted by the modulo rule, index 1 by expiry, index 2 fails to read and
ends the pass, index 3 survives — and a directory within threshold left
untouched. -/
theorem claimC7_prune_rule_witness :
    diskPrune 2 10 false
      [⟨"a", false, .record 50 (some (.vint 1))⟩, ⟨"b", false, .record 3 (some (.vint 2))⟩,
       ⟨"c", false, .badHeader⟩, ⟨"d", false, .record 3 (some (.vint 4))⟩] =
      .ok (diskPruneSpec 2 10
        [⟨"a", false, .record 50 (some (.vint 1))⟩, ⟨"b", false, .record 3 (some (.vint 2))⟩,
         ⟨"c", false, .badHeader⟩, ⟨"d", false, .record 3 (some (.vint 4))⟩]) ∧
    diskPrune 9 10 false
      [⟨"a", false, .record 50 (some (.vint 1))⟩, ⟨"b", false, .record 3 (some (.vint 2))⟩,
       ⟨"c", false, .badHeader⟩, ⟨"d", false, .record 3 (some (.vint 4))⟩] =
      .ok [⟨"a", false, .record 50 (some (.vint 1))⟩, ⟨"b", false, .record 3 (some (.vint 2))⟩,
       ⟨"c", false, .badHeader⟩, ⟨"d", false, .record 3 (some (.vint 4))⟩] :=
  ⟨(claimC7_prune_rule 2 10 _).1, (claimC7_prune_rule 9 10 _).2 (by decide)⟩

theorem strMk_data (s : String) : String.mk s.data = s := rfl

theorem intDecStr_head_ne_bang (n : Int) : (intDecStr n).data.head? ≠ some '!' := by
  by_cases hn : n < 0
  · have hdata : (intDecStr n).data = '-' :: (natDecStr n.natAbs).data := by
      simp only [intDecStr, if_pos hn]
      simpa using String.data_append "-" (natDecStr n.natAbs)
    rw [hdata]
    simp only [List.head?_cons, Option.some.injEq]
    decide
  · obtain ⟨c, cs, hcons, h48, h57⟩ := natDecStr_head_digit n.toNat
    simp only [intDecStr, if_neg hn, hcons, List.head?_cons]
    intro he
    have he' : c = '!' := Option.some.inj he
    rw [he'] at h48
    revert h48
    decide

/-- C6: decoding the encoding round-trips on the remote backend: an
exact-type integer travels as decimal text with no marker byte and parses
back to itself, and any non-integer value whose pickling round-trips
travels as one `'!'` marker byte plus the blob and deserializes back to
itself. -/
theorem claimC6_value_roundtrip (pickleDumps : PyVal → String)
    (pickleLoads : String → Option PyVal) :
    (∀ n : Int, dumpObj pickleDumps (.vint n) = intDecStr n) ∧
    (∀ n : Int, loadObj pickleLoads (some (dumpObj pickleDumps (.vint n))) = .vint n) ∧
    (∀ v : PyVal, (∀ n, v ≠ .vint n) →
      (dumpObj pickleDumps v).data.head? = some '!' ∧
      (pickleLoads (pickleDumps v) = some v →
        loadObj pickleLoads (some (dumpObj pickleDumps v)) = v)) := by
  refine ⟨fun n => rfl, ?_, ?_⟩
  · intro n
    show loadObj pickleLoads (some (intDecStr n)) = .vint n
    simp only [loadObj, if_neg (intDecStr_head_ne_bang n), parseIntPy_intDecStr n]
  · intro v hni
    have hdump : dumpObj pickleDumps v = "!" ++ pickleDumps v := by
      cases v with
      | vint m => exact absurd rfl (hni m)
      | vnone => rfl
      | vstr s => rfl
      | vlist xs => rfl
      | vtuple xs => rfl
      | vdict xs => rfl
    have hdata : (dumpObj pickleDumps v).data = '!' :: (pickleDumps v).data := by
      rw [hdump]
      simpa using String.data_append "!" (pickleDumps v)
    refine ⟨by rw [hdata]; rfl, ?_⟩
    intro hrt
    simp only [loadObj, hdata, List.head?_cons, if_pos rfl, List.tail_cons, strMk_data, hrt,
      if_true]

/-- Witness for C6: storing `42` reads back as `42` along the decimal
path, and storing `"hi"` (with a pickling pair that round-trips on it)
reads back as `"hi"` along the marker-byte path. -/
theorem claimC6_value_roundtrip_witness :
    loadObj (fun _ => some (.vint 42)) (some (dumpObj (fun _ => "p") (.vint 42))) = .vint 42 ∧
    loadObj (fun _ => some (.vstr "hi")) (some (dumpObj (fun _ => "p") (.vstr "hi"))) =
      .vstr "hi" :=
  ⟨(claimC6_value_roundtrip (fun _ => "p") (fun _ => some (.vint 42))).2.1 42,
   ((claimC6_value_roundtrip (fun _ => "p") (fun _ => some (.vstr "hi"))).2.2 (.vstr "hi")
      (fun n h => PyVal.noConfusion h)).2 rfl⟩

/-- C5: fingerprint determinism and ordering — (i) two builders with the
same strategies in the same registration order produce identical digests
on identical inputs (the digest depends only on the registered
components' canonicalized values, in order); (ii) `dictStrategy`
canonicalizes a mapping independently of its iteration order;
(iii) in particular `build({a: {"x":1,"y":2}})` equals
`build({a: {"y":2,"x":1}})` for every hash function; (iv) changing any
registered component's value so that its textual repr differs changes
the digest, provided the hash does not collide on the two canonical
strings (the spec accepts hash collisions as a residual risk). -/
theorem claimC5_fingerprint_determinism :
    (∀ (h : String → String) (strategies : List (String × (PyVal → PyVal)))
      (ctx₁ ctx₂ : String → PyVal),
      (∀ p ∈ strategies, p.2 (ctx₁ p.1) = p.2 (ctx₂ p.1)) →
      buildHash h strategies ctx₁ = buildHash h strategies ctx₂) ∧
    (∀ d₁ d₂ : List (String × PyVal), d₁.Perm d₂ → (d₁.map Prod.fst).Nodup →
      dictStrategy (.vdict d₁) = dictStrategy (.vdict d₂)) ∧
    (∀ h : String → String,
      buildHash h [("a", dictStrategy)] (fun _ => .vdict [("x", .vint 1), ("y", .vint 2)]) =
      buildHash h [("a", dictStrategy)] (fun _ => .vdict [("y", .vint 2), ("x", .vint 1)])) ∧
    (∀ (h : String → String) (P Q : List (String × (PyVal → PyVal))) (name : String)
      (f : PyVal → PyVal) (ctx₁ ctx₂ : String → PyVal),
      (∀ p ∈ P ++ Q, p.2 (ctx₁ p.1) = p.2 (ctx₂ p.1)) →
      reprPy (f (ctx₁ name)) ≠ reprPy (f (ctx₂ name)) →
      (h (buildHashInput (P ++ (name, f) :: Q) ctx₁) =
          h (buildHashInput (P ++ (name, f) :: Q) ctx₂) →
        buildHashInput (P ++ (name, f) :: Q) ctx₁ =
          buildHashInput (P ++ (name, f) :: Q) ctx₂) →
      buildHash h (P ++ (name, f) :: Q) ctx₁ ≠ buildHash h (P ++ (name, f) :: Q) ctx₂) := by
  refine ⟨buildHash_congr, fun d₁ d₂ hp hnd => dictStrategy_perm hp hnd,
    fun h => congrArg h rfl, ?_⟩
  intro h P Q name f ctx₁ ctx₂ hPQ hdiff hcoll heq
  have hin := hcoll heq
  unfold buildHashInput at hin
  rw [List.map_append, List.map_append, List.map_cons, List.map_cons] at hin
  have hP : P.map (fun p => hashComponent p.1 (reprPy (p.2 (ctx₁ p.1)))) =
      P.map (fun p => hashComponent p.1 (reprPy (p.2 (ctx₂ p.1)))) :=
    List.map_congr_left (fun p hp => by rw [hPQ p (List.mem_append_left _ hp)])
  have hQ : Q.map (fun p => hashComponent p.1 (reprPy (p.2 (ctx₁ p.1)))) =
      Q.map (fun p => hashComponent p.1 (reprPy (p.2 (ctx₂ p.1)))) :=
    List.map_congr_left (fun p hp => by rw [hPQ p (List.mem_append_right _ hp)])
  rw [hP, hQ] at hin
  exact hdiff (hashComponent_inj (joinColon_middle_inj _ _ _ _ hin))

/-- Witness for C5: with the identity in place of the hash, the two
orderings of the example dict give equal digests, and changing a
component's value from `1` to `2` changes the digest. -/
theorem claimC5_fingerprint_determinism_witness :
    buildHash id [("a", dictStrategy)] (fun _ => .vdict [("x", .vint 1), ("y", .vint 2)]) =
      buildHash id [("a", dictStrategy)] (fun _ => .vdict [("y", .vint 2), ("x", .vint 1)]) ∧
    buildHash id [("a", fun v => v)] (fun _ => .vint 1) ≠
      buildHash id [("a", fun v => v)] (fun _ => .vint 2) :=
  ⟨claimC5_fingerprint_determinism.2.2.1 id,
   claimC5_fingerprint_determinism.2.2.2 id [] [] "a" (fun v => v)
     (fun _ => .vint 1) (fun _ => .vint 2)
     (fun p hp => absurd hp (List.not_mem_nil p)) (by decide) (fun he => he)⟩
